import Mathlib

/-!
# Verification of the streaming-update pipeline (`src/lib/utils/messageUpdates.ts`)

Shallow embedding conventions:

* JavaScript strings are embedded as `List Char` (abbreviated `Str`), one element
  per UTF-16 code unit of the texts under consideration.
* Platform primitives used by the module are modelled explicitly:
  `value.split("\n")` becomes `splitNewline`, `JSON.parse` becomes `jsonParse`
  (returning `Option Json`, `none` for a `SyntaxError`), and the wall-clock
  dependent character budget of the pacing scheduler becomes an arbitrary
  natural-number budget supplied by a schedule.
* The async generators are embedded as pure sequence transformers: the chunk
  decoder consumes an explicit list of chunks, and the pacing scheduler is a
  small-step state machine driven by a schedule of producer steps and consumer
  frames.
* Fallible operations return `Option` / `Except`.
-/

abbrev Str := List Char

/-- Model of JavaScript `value.split("\n")`: the list of `"\n"`-separated
segments of `value` (never empty; a trailing newline yields a final `""`). -/
def splitNewline : Str → List Str
  | [] => [[]]
  | c :: cs =>
    if c = '\n' then [] :: splitNewline cs
    else
      match splitNewline cs with
      | s :: ss => (c :: s) :: ss
      | [] => [[c]]

/-- Helper view of `splitNewline`: the complete (newline-terminated) lines of a
string together with the dangling text after its last newline. -/
def splitLines : Str → List Str × Str
  | [] => ([], [])
  | c :: cs =>
    let r := splitLines cs
    if c = '\n' then ([] :: r.1, r.2)
    else
      match r.1 with
      | l :: ls => ((c :: l) :: ls, r.2)
      | [] => ([], c :: r.2)

theorem splitNewline_ne_nil (s : Str) : splitNewline s ≠ [] := by
  induction s with
  | nil => simp [splitNewline]
  | cons c cs ih =>
    simp only [splitNewline]
    split
    · simp
    · cases h : splitNewline cs <;> simp

theorem splitNewline_eq_splitLines (s : Str) :
    splitNewline s = (splitLines s).1 ++ [(splitLines s).2] := by
  induction s with
  | nil => simp [splitNewline, splitLines]
  | cons c cs ih =>
    simp only [splitNewline, splitLines]
    by_cases hc : c = '\n'
    · rw [if_pos hc, if_pos hc, ih]
      simp
    · rw [if_neg hc, if_neg hc, ih]
      cases h : (splitLines cs).1 with
      | nil => simp [h]
      | cons l ls => simp [h]

theorem splitLines_tail_no_newline (s : Str) : '\n' ∉ (splitLines s).2 := by
  induction s with
  | nil => simp [splitLines]
  | cons c cs ih =>
    simp only [splitLines]
    by_cases hc : c = '\n'
    · rw [if_pos hc]; exact ih
    · rw [if_neg hc]
      cases h : (splitLines cs).1 with
      | nil =>
        simp only
        intro hmem
        rcases List.mem_cons.mp hmem with heq | hm
        · exact hc heq.symm
        · exact ih hm
      | cons l ls => exact ih

theorem splitLines_of_no_newline (s : Str) (h : '\n' ∉ s) : splitLines s = ([], s) := by
  induction s with
  | nil => simp [splitLines]
  | cons c cs ih =>
    simp only [List.mem_cons, not_or] at h
    simp only [splitLines]
    rw [if_neg (fun hc => h.1 hc.symm)]
    rw [ih h.2]

/-- Gluing a newline-free carry onto the front of a split result. -/
def glueCarry (t : Str) : List Str × Str → List Str × Str
  | (l :: ls, t2) => ((t ++ l) :: ls, t2)
  | ([], t2) => ([], t ++ t2)

theorem glueCarry_nil (r : List Str × Str) : glueCarry [] r = r := by
  rcases r with ⟨ls, t⟩
  cases ls <;> simp [glueCarry]

theorem splitLines_append (a b : Str) :
    splitLines (a ++ b) =
      ((splitLines a).1 ++ (glueCarry (splitLines a).2 (splitLines b)).1,
        (glueCarry (splitLines a).2 (splitLines b)).2) := by
  induction a with
  | nil => simp [splitLines, glueCarry_nil]
  | cons c a' ih =>
    have hstep : (c :: a') ++ b = c :: (a' ++ b) := rfl
    rw [hstep]
    simp only [splitLines]
    by_cases hc : c = '\n'
    · rw [if_pos hc, if_pos hc, ih]
      simp
    · rw [if_neg hc, if_neg hc, ih]
      cases ha : (splitLines a').1 with
      | cons l ls =>
        rcases hb : glueCarry (splitLines a').2 (splitLines b) with ⟨gl, gt⟩
        simp [ha, hb]
      | nil =>
        rcases hb : splitLines b with ⟨bl, bt⟩
        cases bl with
        | cons m ms => simp [ha, hb, glueCarry]
        | nil => simp [ha, hb, glueCarry]

theorem splitLines_carry (a b : Str) :
    splitLines (a ++ b) =
      ((splitLines a).1 ++ (splitLines ((splitLines a).2 ++ b)).1,
        (splitLines ((splitLines a).2 ++ b)).2) := by
  have h2 := splitLines_append ((splitLines a).2) b
  rw [splitLines_of_no_newline _ (splitLines_tail_no_newline a)] at h2
  simp only [glueCarry_nil] at h2
  rw [splitLines_append a b, h2]
  simp

/-! ## A model of the JavaScript `JSON.parse` used by the decoder

`JSON.parse(line)` either returns a JSON value or throws a `SyntaxError`;
the decoder only relies on which strings parse and on the parsed values being
distinct records, so we embed a standard recursive-descent JSON reader
(`jsonParse : Str → Option Json`, `none` modelling the `SyntaxError`).
Recursion over nested values is paced by a fuel argument that is at least the
input length, which suffices since every recursive call consumes input. -/

inductive Json where
  | null
  | bool (b : Bool)
  | num (lit : Str)
  | str (s : Str)
  | arr (elems : List Json)
  | obj (fields : List (Str × Json))

def isJsonWs (c : Char) : Bool :=
  c = ' ' || c = '\t' || c = '\n' || c = '\r'

def skipWs : Str → Str
  | [] => []
  | c :: cs => if isJsonWs c then skipWs cs else c :: cs

def hexVal (c : Char) : Option Nat :=
  if 48 ≤ c.toNat ∧ c.toNat ≤ 57 then some (c.toNat - 48)
  else if 97 ≤ c.toNat ∧ c.toNat ≤ 102 then some (c.toNat - 87)
  else if 65 ≤ c.toNat ∧ c.toNat ≤ 70 then some (c.toNat - 55)
  else none

def escChar (c : Char) : Option Char :=
  if c = '"' then some '"'
  else if c = '\\' then some '\\'
  else if c = '/' then some '/'
  else if c = 'n' then some '\n'
  else if c = 't' then some '\t'
  else if c = 'r' then some '\r'
  else if c = 'b' then some (Char.ofNat 8)
  else if c = 'f' then some (Char.ofNat 12)
  else none

def parseStringBody : Str → Option (Str × Str)
  | [] => none
  | c :: rest =>
    if c = '"' then some ([], rest)
    else if c = '\\' then
      match rest with
      | [] => none
      | e :: rest2 =>
        if e = 'u' then
          match rest2 with
          | h1 :: h2 :: h3 :: h4 :: rest3 =>
            match hexVal h1, hexVal h2, hexVal h3, hexVal h4 with
            | some a, some b, some c2, some d =>
              match parseStringBody rest3 with
              | some (s, r) => some (Char.ofNat (((a * 16 + b) * 16 + c2) * 16 + d) :: s, r)
              | none => none
            | _, _, _, _ => none
          | _ => none
        else
          match escChar e with
          | some ec =>
            match parseStringBody rest2 with
            | some (s, r) => some (ec :: s, r)
            | none => none
          | none => none
    else if c.toNat < 32 then none
    else
      match parseStringBody rest with
      | some (s, r) => some (c :: s, r)
      | none => none

def isDigit (c : Char) : Bool := 48 ≤ c.toNat && c.toNat ≤ 57

/-- Integer part of a JSON number: `0`, or a nonzero digit followed by digits. -/
def parseIntPart : Str → Option (Str × Str)
  | [] => none
  | c :: rest =>
    if c = '0' then some ([c], rest)
    else if isDigit c then some (c :: rest.takeWhile isDigit, rest.dropWhile isDigit)
    else none

def parseFracPart : Str → Str × Str
  | [] => ([], [])
  | c :: rest =>
    if c = '.' ∧ (rest.takeWhile isDigit) ≠ [] then
      (c :: rest.takeWhile isDigit, rest.dropWhile isDigit)
    else ([], c :: rest)

def parseExpPart : Str → Str × Str
  | [] => ([], [])
  | c :: rest =>
    if c = 'e' ∨ c = 'E' then
      match rest with
      | s :: rest2 =>
        if s = '+' ∨ s = '-' then
          if (rest2.takeWhile isDigit) ≠ [] then
            (c :: s :: rest2.takeWhile isDigit, rest2.dropWhile isDigit)
          else ([], c :: s :: rest2)
        else if (rest.takeWhile isDigit) ≠ [] then
          (c :: rest.takeWhile isDigit, rest.dropWhile isDigit)
        else ([], c :: rest)
      | [] => ([], [c])
    else ([], c :: rest)

def parseNum (s : Str) : Option (Str × Str) :=
  let signed : Str × Str :=
    match s with
    | c :: rest => if c = '-' then ([c], rest) else ([], s)
    | [] => ([], [])
  match parseIntPart signed.2 with
  | none => none
  | some (ip, s2) =>
    let fr := parseFracPart s2
    let ex := parseExpPart fr.2
    some (signed.1 ++ ip ++ fr.1 ++ ex.1, ex.2)

mutual

def parseVal : Nat → Str → Option (Json × Str)
  | 0, _ => none
  | fuel + 1, s =>
    match skipWs s with
    | 'n' :: 'u' :: 'l' :: 'l' :: r => some (.null, r)
    | 't' :: 'r' :: 'u' :: 'e' :: r => some (.bool true, r)
    | 'f' :: 'a' :: 'l' :: 's' :: 'e' :: r => some (.bool false, r)
    | '"' :: r => (parseStringBody r).map (fun p => (.str p.1, p.2))
    | '[' :: r =>
      (match skipWs r with
       | ']' :: r2 => some (.arr [], r2)
       | s2 => (parseElems fuel s2).map (fun p => (.arr p.1, p.2)))
    | '{' :: r =>
      (match skipWs r with
       | '}' :: r2 => some (.obj [], r2)
       | s2 => (parseMembers fuel s2).map (fun p => (.obj p.1, p.2)))
    | s' => (parseNum s').map (fun p => (.num p.1, p.2))

def parseElems : Nat → Str → Option (List Json × Str)
  | 0, _ => none
  | fuel + 1, s =>
    match parseVal fuel s with
    | none => none
    | some (j, r) =>
      match skipWs r with
      | ',' :: r2 => (parseElems fuel r2).map (fun p => (j :: p.1, p.2))
      | ']' :: r2 => some ([j], r2)
      | _ => none

def parseMembers : Nat → Str → Option (List (Str × Json) × Str)
  | 0, _ => none
  | fuel + 1, s =>
    match skipWs s with
    | '"' :: r =>
      (match parseStringBody r with
       | none => none
       | some (key, r2) =>
         match skipWs r2 with
         | ':' :: r3 =>
           (match parseVal fuel r3 with
            | none => none
            | some (j, r4) =>
              match skipWs r4 with
              | ',' :: r5 => (parseMembers fuel r5).map (fun p => ((key, j) :: p.1, p.2))
              | '}' :: r5 => some ([(key, j)], r5)
              | _ => none)
         | _ => none)
    | _ => none

end

/-- Model of JavaScript `JSON.parse`: parse one value, require only trailing
whitespace after it, and report `none` in place of a thrown `SyntaxError`. -/
def jsonParse (s : Str) : Option Json :=
  match parseVal (s.length + 1) s with
  | some (j, r) => if skipWs r = [] then some j else none
  | none => none

/-! ## Chunk decoder and framer

`parseMessageUpdates` (src/lib/utils/messageUpdates.ts:113-133) splits
`value` on `"\n"` and pushes `JSON.parse(input)` for each segment; the first
segment that throws a `SyntaxError` makes the function return the records
parsed so far together with `inputs.at(-1) ?? ""` as `remainingText`
(`JSON.parse` only ever throws `SyntaxError`, so the non-`SyntaxError` branch
of the catch is dead).  If every segment parses, `remainingText` is `""`.
The decoder is parametric in the parse function `parse : Str → Option α`;
the concrete instantiation used by the repository is `jsonParse`. -/

def parseLoop (parse : Str → Option α) (lastSeg : Str) : List Str → List α × Str
  | [] => ([], [])
  | s :: rest =>
    match parse s with
    | some u =>
      let r := parseLoop parse lastSeg rest
      (u :: r.1, r.2)
    | none => ([], lastSeg)

def parseMessageUpdates (parse : Str → Option α) (value : Str) : List α × Str :=
  parseLoop parse ((splitNewline value).getLastD []) (splitNewline value)

/-- `endpointStreamToIterator` (src/lib/utils/messageUpdates.ts:83-111): reads
chunks until the reader reports `done`, skips falsy (empty) chunks, feeds
`prevChunk + value` to `parseMessageUpdates`, yields the parsed records and
keeps `remainingText` as the next carry; on `done` the loop breaks and the
leftover carry is dropped.  The chunked body is embedded as a `List Str`. -/
def endpointStreamToIterator (parse : Str → Option α) : Str → List Str → List α
  | _, [] => []
  | prevChunk, value :: rest =>
    if value = [] then endpointStreamToIterator parse prevChunk rest
    else
      let r := parseMessageUpdates parse (prevChunk ++ value)
      r.1 ++ endpointStreamToIterator parse r.2 rest

/-- Concatenation of all chunks of a stream. -/
def concatChunks (cs : List Str) : Str := cs.foldr (· ++ ·) []

/-! ## Behaviour of `parseMessageUpdates` -/

theorem splitNewline_getLastD (s : Str) :
    (splitNewline s).getLastD [] = (splitLines s).2 := by
  rw [splitNewline_eq_splitLines]
  simp

theorem parseLoop_all_some (parse : Str → Option α) (lastSeg : Str) (l : List Str)
    (h : ∀ s ∈ l, (parse s).isSome) :
    parseLoop parse lastSeg l = (l.filterMap parse, []) := by
  induction l with
  | nil => simp [parseLoop]
  | cons s rest ih =>
    obtain ⟨u, hu⟩ := Option.isSome_iff_exists.mp (h s (by simp))
    rw [List.filterMap_cons]
    simp [parseLoop, hu, ih (fun x hx => h x (by simp [hx]))]

theorem parseLoop_break (parse : Str → Option α) (lastSeg : Str)
    (pre : List Str) (bad : Str) (rest : List Str)
    (hpre : ∀ s ∈ pre, (parse s).isSome) (hbad : parse bad = none) :
    parseLoop parse lastSeg (pre ++ bad :: rest) = (pre.filterMap parse, lastSeg) := by
  induction pre with
  | nil => simp [parseLoop, hbad]
  | cons s pre' ih =>
    obtain ⟨u, hu⟩ := Option.isSome_iff_exists.mp (hpre s (by simp))
    rw [List.filterMap_cons]
    simp [parseLoop, hu, ih (fun x hx => hpre x (by simp [hx]))]

/-- When every complete line parses and the dangling tail does not, a chunk
produces exactly the records of its complete lines and keeps the tail. -/
theorem parseMessageUpdates_spec_none (parse : Str → Option α) (value : Str)
    (hlines : ∀ l ∈ (splitLines value).1, (parse l).isSome)
    (htail : parse (splitLines value).2 = none) :
    parseMessageUpdates parse value =
      ((splitLines value).1.filterMap parse, (splitLines value).2) := by
  unfold parseMessageUpdates
  rw [splitNewline_getLastD, splitNewline_eq_splitLines]
  have h := parseLoop_break parse (splitLines value).2
    (splitLines value).1 (splitLines value).2 [] hlines htail
  simpa using h

/-- When every segment parses, the last segment included, every segment is
emitted as a record and the carry is empty. -/
theorem parseMessageUpdates_spec_some (parse : Str → Option α) (value : Str) (j : α)
    (hlines : ∀ l ∈ (splitLines value).1, (parse l).isSome)
    (htail : parse (splitLines value).2 = some j) :
    parseMessageUpdates parse value =
      ((splitLines value).1.filterMap parse ++ [j], []) := by
  unfold parseMessageUpdates
  rw [splitNewline_getLastD, splitNewline_eq_splitLines]
  rw [parseLoop_all_some parse (splitLines value).2 _
    (by
      intro s hs
      rcases List.mem_append.mp hs with h | h
      · exact hlines s h
      · rw [List.mem_singleton.mp h, htail]; rfl)]
  simp [List.filterMap_append, List.filterMap_cons, htail]

theorem concatChunks_nil : concatChunks [] = [] := rfl

theorem concatChunks_cons (c : Str) (cs : List Str) :
    concatChunks (c :: cs) = c ++ concatChunks cs := rfl

/-- Core decoder run lemma: if every complete line of the stream parses and no
intermediate dangling tail (the text after the last newline of any chunk
prefix) is itself parseable, the decoder emits exactly the records of the
complete lines of the concatenated stream. -/
theorem endpointStreamToIterator_spec (parse : Str → Option α) (cs : List Str) (carry : Str)
    (hnl : '\n' ∉ carry)
    (H1 : ∀ l ∈ (splitLines (carry ++ concatChunks cs)).1, (parse l).isSome)
    (H2 : ∀ i ≤ cs.length, parse (splitLines (carry ++ concatChunks (cs.take i))).2 = none) :
    endpointStreamToIterator parse carry cs =
      (splitLines (carry ++ concatChunks cs)).1.filterMap parse := by
  induction cs generalizing carry with
  | nil =>
    rw [concatChunks_nil, List.append_nil, splitLines_of_no_newline carry hnl]
    simp [endpointStreamToIterator]
  | cons c cs' ih =>
    have hassoc : carry ++ concatChunks (c :: cs') = (carry ++ c) ++ concatChunks cs' := by
      rw [concatChunks_cons, List.append_assoc]
    by_cases hcnil : c = []
    · subst hcnil
      simp only [endpointStreamToIterator, if_pos rfl]
      have heq : carry ++ concatChunks ([] :: cs') = carry ++ concatChunks cs' := by
        rw [concatChunks_cons]; simp
      rw [heq] at H1
      refine (ih carry hnl H1 ?_).trans (by rw [heq])
      intro i hi
      have := H2 (i + 1) (by simpa using hi)
      simpa [concatChunks_cons] using this
    · simp only [endpointStreamToIterator, if_neg hcnil]
      have hcar := splitLines_carry (carry ++ c) (concatChunks cs')
      have hlines1 : ∀ l ∈ (splitLines (carry ++ c)).1, (parse l).isSome := by
        intro l hl
        apply H1
        rw [hassoc, hcar]
        exact List.mem_append.mpr (Or.inl hl)
      have htail1 : parse (splitLines (carry ++ c)).2 = none := by
        have := H2 1 (by simp)
        simpa [concatChunks_cons, concatChunks_nil] using this
      rw [parseMessageUpdates_spec_none parse (carry ++ c) hlines1 htail1]
      have ihx := ih ((splitLines (carry ++ c)).2) (splitLines_tail_no_newline _) ?_ ?_
      · rw [ihx, hassoc, hcar]
        simp [List.filterMap_append]
      · intro l hl
        apply H1
        rw [hassoc, hcar]
        exact List.mem_append.mpr (Or.inr hl)
      · intro i hi
        have h2 := H2 (i + 1) (by simpa using hi)
        have hcar2 := splitLines_carry (carry ++ c) (concatChunks (cs'.take i))
        have hassoc2 : carry ++ concatChunks ((c :: cs').take (i + 1)) =
            (carry ++ c) ++ concatChunks (cs'.take i) := by
          simp [concatChunks_cons, List.append_assoc]
        rw [hassoc2, hcar2] at h2
        exact h2

/-! ## Concrete records used by witnesses and counterexamples -/

def recA : Str := "\x7b\"a\":null\x7d".data

def recB : Str := "\x7b\"b\":null\x7d".data

def jsonA : Json := Json.obj [("a".data, Json.null)]

def jsonB : Json := Json.obj [("b".data, Json.null)]

/-! ## C1: framing under chunk splits -/

/-- C1 (counterexample): the decoded record sequence is *not* independent of
split points.  The valid stream `{"a":null}\n{"b":null}\n` decoded as one
chunk yields both records, but split right after the first record (before its
newline) it yields only the first: the first chunk's trailing segment parses
and is emitted with an empty carry, and the next chunk then starts with a
newline whose empty first segment raises a `SyntaxError`, dropping the rest
of that chunk. -/
theorem framing_split_counterexample :
    endpointStreamToIterator jsonParse [] [recA, '\n' :: (recB ++ ['\n'])] = [jsonA] ∧
    endpointStreamToIterator jsonParse [] [recA ++ '\n' :: (recB ++ ['\n'])] = [jsonA, jsonB] ∧
    endpointStreamToIterator jsonParse [] [recA, '\n' :: (recB ++ ['\n'])] ≠
      endpointStreamToIterator jsonParse [] [recA ++ '\n' :: (recB ++ ['\n'])] := by
  refine ⟨rfl, rfl, ?_⟩
  have h1 : endpointStreamToIterator jsonParse [] [recA, '\n' :: (recB ++ ['\n'])]
      = [jsonA] := rfl
  have h2 : endpointStreamToIterator jsonParse [] [recA ++ '\n' :: (recB ++ ['\n'])]
      = [jsonA, jsonB] := rfl
  rw [h1, h2]
  intro h
  simpa using congrArg List.length h

/-- C1 (amended): split-invariance holds provided that, for every prefix of the
chunk sequence, the text after the last newline received so far does not itself
parse as JSON (which fails exactly when a split lands at the end of a record
before its newline; the empty tail produced by a delimiter-aligned split parses
as nothing, so it satisfies the hypothesis).  Under that condition, decoding
the chunk sequence equals decoding the whole stream as a single chunk. -/
theorem framing_split_invariance (parse : Str → Option α) (cs : List Str)
    (H1 : ∀ l ∈ (splitLines (concatChunks cs)).1, (parse l).isSome)
    (H2 : ∀ i ≤ cs.length, parse (splitLines (concatChunks (cs.take i))).2 = none) :
    endpointStreamToIterator parse [] cs =
      endpointStreamToIterator parse [] [concatChunks cs] := by
  have e1 := endpointStreamToIterator_spec parse cs [] (by simp)
    (by simpa using H1) (by simpa using H2)
  by_cases h : concatChunks cs = []
  · rw [e1, h]
    simp [endpointStreamToIterator, splitLines]
  · have e2 := endpointStreamToIterator_spec parse [concatChunks cs] [] (by simp) ?_ ?_
    · rw [e1, e2]
      simp [concatChunks_cons, concatChunks_nil]
    · simpa [concatChunks_cons, concatChunks_nil] using H1
    · intro i hi
      simp only [List.length_singleton] at hi
      interval_cases i
      · have h0 := H2 0 (by simp)
        simpa [concatChunks_nil] using h0
      · have hn := H2 cs.length le_rfl
        simpa [concatChunks_cons, concatChunks_nil, List.take_length] using hn

theorem framing_split_invariance_witness :
    endpointStreamToIterator jsonParse [] ["\x7b\"a\"".data, ":null\x7d\n".data] =
      endpointStreamToIterator jsonParse []
        [concatChunks ["\x7b\"a\"".data, ":null\x7d\n".data]] :=
  framing_split_invariance jsonParse ["\x7b\"a\"".data, ":null\x7d\n".data]
    (by decide)
    (by
      intro i hi
      simp only [List.length_cons, List.length_nil] at hi
      interval_cases i <;> rfl)

/-! ## C2: fate of the last newline-separated segment -/

/-- C2 (counterexample): a chunk with zero newlines whose text happens to be a
complete JSON record is *not* held as carry: `parseMessageUpdates` parses the
last segment like any other, emits it as a record in the same step, and leaves
an empty carry. -/
theorem parse_last_segment_counterexample :
    (parseMessageUpdates jsonParse recA).1 = [jsonA] ∧
    (parseMessageUpdates jsonParse recA).2 = [] ∧
    '\n' ∉ recA := by
  refine ⟨rfl, rfl, by decide⟩

/-- C2 (amended): for a chunk whose complete (non-last) segments all parse, the
last newline-separated segment is retained as the new carry exactly when it
fails to parse as JSON; when it parses successfully it is emitted as a record
in that very step and the carry is left empty.  A chunk ending in a trailing
newline has an empty last segment and (the empty string never parsing) leaves
an empty carry, and a chunk with zero newlines is held entirely as carry only
when its text is not itself complete JSON. -/
theorem parse_last_segment (parse : Str → Option α) (value : Str)
    (H : ∀ l ∈ (splitNewline value).dropLast, (parse l).isSome) :
    (parse ((splitNewline value).getLastD []) = none →
      parseMessageUpdates parse value =
        ((splitNewline value).dropLast.filterMap parse, (splitNewline value).getLastD []))
    ∧ (∀ j, parse ((splitNewline value).getLastD []) = some j →
      parseMessageUpdates parse value =
        ((splitNewline value).dropLast.filterMap parse ++ [j], [])) := by
  have hd : (splitNewline value).dropLast = (splitLines value).1 := by
    rw [splitNewline_eq_splitLines]; simp
  rw [hd] at H
  rw [hd, splitNewline_getLastD]
  exact ⟨fun h => parseMessageUpdates_spec_none parse value H h,
    fun j h => parseMessageUpdates_spec_some parse value j H h⟩

theorem parse_last_segment_witness :
    parseMessageUpdates jsonParse (recA ++ '\n' :: "xy".data) =
      ((splitNewline (recA ++ '\n' :: "xy".data)).dropLast.filterMap jsonParse,
        (splitNewline (recA ++ '\n' :: "xy".data)).getLastD []) :=
  (parse_last_segment jsonParse (recA ++ '\n' :: "xy".data) (by decide)).1 rfl

/-! ## C3: effect of a parse failure on the rest of the chunk -/

/-- C3 (counterexample): after a failing segment, decoding does *not* continue
with the next segment of the same chunk.  In `bad\n{"a":null}\n` the second
segment is complete, parseable JSON, yet the early return triggered by `bad`
drops it: no records are emitted at all. -/
theorem parse_failure_drop_counterexample :
    (parseMessageUpdates jsonParse ("bad".data ++ '\n' :: (recA ++ ['\n']))).1 = [] ∧
    jsonParse recA = some jsonA ∧
    splitNewline ("bad".data ++ '\n' :: (recA ++ ['\n'])) = ["bad".data, recA, []] :=
  ⟨rfl, rfl, rfl⟩

/-- C3 (amended): when a segment of a chunk fails to parse, the loop returns
immediately: the records parsed from the segments *before* the failure are
emitted, the failing segment and every segment after it are dropped, and the
chunk's final segment (whatever it is) becomes the carry.  No error is
reported — the function still returns normally. -/
theorem parse_failure_drops_rest (parse : Str → Option α) (value : Str)
    (pre : List Str) (bad : Str) (rest : List Str)
    (hsplit : splitNewline value = pre ++ bad :: rest)
    (hpre : ∀ s ∈ pre, (parse s).isSome) (hbad : parse bad = none) :
    parseMessageUpdates parse value =
      (pre.filterMap parse, (splitNewline value).getLastD []) := by
  unfold parseMessageUpdates
  rw [hsplit]
  exact parseLoop_break parse ((pre ++ bad :: rest).getLastD []) pre bad rest hpre hbad

theorem parse_failure_drops_rest_witness :
    parseMessageUpdates jsonParse ("bad".data ++ '\n' :: (recA ++ ['\n'])) =
      (List.filterMap jsonParse [],
        (splitNewline ("bad".data ++ '\n' :: (recA ++ ['\n']))).getLastD []) :=
  parse_failure_drops_rest jsonParse ("bad".data ++ '\n' :: (recA ++ ['\n']))
    [] "bad".data [recA, []] rfl (by simp) rfl

/-! ## C8: carry discarded at stream end -/

/-- C8 (confirmed): when the source completes while a dangling
non-newline-terminated partial line (one that does not parse as JSON) is held
as carry, the decoder has yielded exactly the records of the previously
completed lines and the carry is silently dropped — the loop breaks on `done`
without any further parse of the leftover text. -/
theorem carry_discard_on_end (parse : Str → Option α) (value : Str)
    (hlines : ∀ l ∈ (splitLines value).1, (parse l).isSome)
    (htail : parse (splitLines value).2 = none) :
    endpointStreamToIterator parse [] [value] = (splitLines value).1.filterMap parse := by
  by_cases h : value = []
  · subst h
    simp [endpointStreamToIterator, splitLines]
  · simp only [endpointStreamToIterator, if_neg h, List.nil_append]
    rw [parseMessageUpdates_spec_none parse value hlines htail]
    simp [endpointStreamToIterator]

theorem carry_discard_on_end_witness :
    endpointStreamToIterator jsonParse [] [recA ++ '\n' :: "\x7b\"b\"".data] =
      (splitLines (recA ++ '\n' :: "\x7b\"b\"".data)).1.filterMap jsonParse :=
  carry_discard_on_end jsonParse (recA ++ '\n' :: "\x7b\"b\"".data) (by decide) rfl

/-! ## Word coalescer (`streamMessageUpdatesToFullWords`, lines 141-187)

The records flowing through the coalescer and the pacing scheduler are the
`MessageUpdate` tagged union; both stages only discriminate on
`update.type === "stream"`, so the embedding keeps a `stream` constructor with
its token and folds every other variant into an opaque `nonStream` payload. -/

inductive MessageUpdate where
  | stream (token : Str)
  | nonStream (payload : Str)
deriving DecidableEq

/-- The character class `[a-zA-Z0-9À-ž'\x60]` of the two coalescer regexes
(code points 192-382 are the `À`-`ž` range, 39 is the apostrophe and 96 the
backtick). -/
def isWordChar (c : Char) : Bool :=
  (97 ≤ c.toNat && c.toNat ≤ 122) || (65 ≤ c.toNat && c.toNat ≤ 90) ||
  (48 ≤ c.toNat && c.toNat ≤ 57) || c.toNat = 39 || c.toNat = 96 ||
  (192 ≤ c.toNat && c.toNat ≤ 382)

/-- `endAlphanumeric.test(s)`: `s` ends with one or more word characters. -/
def endAlphanumeric (s : Str) : Bool :=
  match s.getLast? with
  | some c => isWordChar c
  | none => false

/-- `beginnningAlphanumeric.test(s)` (name kept from the source): `s` begins
with one or more word characters. -/
def beginnningAlphanumeric (s : Str) : Bool :=
  match s with
  | c :: _ => isWordChar c
  | [] => false

def shouldCombine (prev next : Str) : Bool :=
  endAlphanumeric prev && beginnningAlphanumeric next

/-- The inner `for (let i = 1; ...)` loop over the buffered stream tokens:
`group` is the current slice `buffer[lastIndexEmitted..i)` and the walk
continues while `shouldCombine` holds and fewer than 5 tokens are grouped
(`i - lastIndexEmitted >= 5` is `combinedTooMany`); otherwise the group is
emitted and a new group starts at the current token.  Returns the emitted
groups and the remaining buffer (`buffer.slice(lastIndexEmitted)`). -/
def combineLoop (group : List Str) : List Str → List (List Str) × List Str
  | [] => ([], group)
  | next :: rest =>
    if shouldCombine (group.getLastD []) next ∧ group.length < 5 then
      combineLoop (group ++ [next]) rest
    else
      let r := combineLoop [next] rest
      (group :: r.1, r.2)

/-- `streamMessageUpdatesToFullWords` with its buffer state made explicit: a
non-stream update first flushes the buffered tokens (joined into one record),
then passes through; a stream update is pushed and the inner loop emits the
full groups; at input exhaustion each remaining buffered token is yielded
individually (the trailing `for ... yield messageUpdate` of line 186). -/
def fullWordsGo : List Str → List MessageUpdate → List MessageUpdate
  | buffered, [] => buffered.map (fun t => MessageUpdate.stream t)
  | buffered, u :: rest =>
    match u with
    | .stream tok =>
      (match buffered ++ [tok] with
       | [] => []
       | b :: bs =>
         let r := combineLoop [b] bs
         r.1.map (fun g => MessageUpdate.stream g.flatten) ++ fullWordsGo r.2 rest)
    | .nonStream p =>
      (if buffered.isEmpty then [] else [MessageUpdate.stream buffered.flatten])
        ++ MessageUpdate.nonStream p :: fullWordsGo [] rest

def streamMessageUpdatesToFullWords (updates : List MessageUpdate) : List MessageUpdate :=
  fullWordsGo [] updates

/-! ## C6: the documented coalescing example -/

/-- C6 (code bug): the function's own doc comment (lines 135-140) promises
`"what" " don" "'t" => "what" " don't"`, and the claim repeats it, but the
final flush at input exhaustion (line 186) yields each buffered update
individually instead of joining them: the actual output keeps `" don"` and
`"'t"` as two separate fragments.  This theorem evaluates the code at the
failing input. -/
theorem coalesce_example_failing_input :
    streamMessageUpdatesToFullWords
      [MessageUpdate.stream "what".data, MessageUpdate.stream " don".data,
        MessageUpdate.stream "\x27t".data] =
      [MessageUpdate.stream "what".data, MessageUpdate.stream " don".data,
        MessageUpdate.stream "\x27t".data] := rfl

/-! ## C7: the 5-fragment coalescing cap -/

/-- C7 (confirmed, in the sharp form): six consecutive stream fragments, each
adjacent pair passing the word-continuation test, produce exactly two output
fragments: the first five merged into one (the inner loop stops buffering when
`i - lastIndexEmitted >= 5`) and the sixth on its own — so at least two
fragments are emitted and no output fragment merges more than 5 inputs. -/
theorem coalescing_cap (a b c d e f : Str)
    (hab : shouldCombine a b = true) (hbc : shouldCombine b c = true)
    (hcd : shouldCombine c d = true) (hde : shouldCombine d e = true)
    (hef : shouldCombine e f = true) :
    streamMessageUpdatesToFullWords
      [MessageUpdate.stream a, MessageUpdate.stream b, MessageUpdate.stream c,
        MessageUpdate.stream d, MessageUpdate.stream e, MessageUpdate.stream f] =
      [MessageUpdate.stream (List.flatten [a, b, c, d, e]), MessageUpdate.stream f] := by
  simp [streamMessageUpdatesToFullWords, fullWordsGo, combineLoop, hab, hbc, hcd, hde, hef]

theorem coalescing_cap_witness :
    streamMessageUpdatesToFullWords
      [MessageUpdate.stream "a".data, MessageUpdate.stream "b".data,
        MessageUpdate.stream "c".data, MessageUpdate.stream "d".data,
        MessageUpdate.stream "e".data, MessageUpdate.stream "f".data] =
      [MessageUpdate.stream (List.flatten ["a".data, "b".data, "c".data, "d".data, "e".data]),
        MessageUpdate.stream "f".data] :=
  coalescing_cap "a".data "b".data "c".data "d".data "e".data "f".data
    (by decide) (by decide) (by decide) (by decide) (by decide)

/-! ## Pacing scheduler (`smoothAsyncIterator`, lines 199-288)

The scheduler runs a producer (draining the upstream iterator into a character
queue and a pending non-stream queue) concurrently with a frame-paced consumer
loop.  The embedding is a small-step machine: a `producer` step transfers the
next upstream update into the queues (and sets `iteratorDone` once the
upstream is exhausted), and a `frame budget` step performs one iteration of
the consumer loop — first emitting every pending non-stream update, then, if
characters are queued and the time/speed computation yields a positive
`charsToProcess` (the arbitrary `budget`, covering every possible wall-clock
and speed evolution), splicing `min budget queue.length` characters off the
queue as one stream record.  The JS scheduling guarantees that the producer
only runs while the consumer is suspended, so runs of this machine cover all
interleavings of the real generator. -/

structure SmoothState where
  pending : List MessageUpdate
  charQueue : Str
  nonQueue : List MessageUpdate
  iteratorDone : Bool
deriving DecidableEq

inductive SmoothStep where
  | producer
  | frame (budget : Nat)
deriving DecidableEq

def smoothInit (input : List MessageUpdate) : SmoothState :=
  ⟨input, [], [], false⟩

/-- One step of the background `consumeIterator` task: a stream token is split
into characters pushed onto `charQueue`, any other update is appended to
`pendingNonStreamUpdates`; once the upstream is exhausted `iteratorDone` is
set. -/
def producerStep (st : SmoothState) : SmoothState :=
  match st.pending with
  | [] => { st with iteratorDone := true }
  | u :: rest =>
    match u with
    | .stream tok => { st with pending := rest, charQueue := st.charQueue ++ tok }
    | .nonStream p =>
      { st with pending := rest, nonQueue := st.nonQueue ++ [MessageUpdate.nonStream p] }

/-- One iteration of the main animation loop: drain `pendingNonStreamUpdates`
first, then, when characters are queued and `charsToProcess > 0`, emit
`min charsToProcess queue.length` spliced characters as one stream record. -/
def frameStep (budget : Nat) (st : SmoothState) : SmoothState × List MessageUpdate :=
  if 0 < budget ∧ st.charQueue ≠ [] then
    ({ st with nonQueue := [], charQueue := st.charQueue.drop (min budget st.charQueue.length) },
      st.nonQueue ++ [MessageUpdate.stream (st.charQueue.take (min budget st.charQueue.length))])
  else
    ({ st with nonQueue := [] }, st.nonQueue)

def smoothStep : SmoothStep → SmoothState → SmoothState × List MessageUpdate
  | .producer, st => (producerStep st, [])
  | .frame n, st => frameStep n st

def smoothRun : List SmoothStep → SmoothState → SmoothState × List MessageUpdate
  | [], st => (st, [])
  | s :: ss, st =>
    let r := smoothStep s st
    let r2 := smoothRun ss r.1
    (r2.1, r.2 ++ r2.2)

/-- Concatenation of all characters carried by the stream records of a
sequence, in order. -/
def streamChars : List MessageUpdate → Str
  | [] => []
  | .stream t :: rest => t ++ streamChars rest
  | .nonStream _ :: rest => streamChars rest

/-- The subsequence of non-stream records. -/
def filterNonStream : List MessageUpdate → List MessageUpdate
  | [] => []
  | .stream _ :: rest => filterNonStream rest
  | .nonStream p :: rest => MessageUpdate.nonStream p :: filterNonStream rest

/-- Number of stream characters occurring strictly before the `(k+1)`-st
non-stream record of a sequence (all of them when fewer non-stream records
exist). -/
def charsBeforeNonStream : Nat → List MessageUpdate → Nat
  | k, .stream t :: rest => t.length + charsBeforeNonStream k rest
  | 0, .nonStream _ :: _ => 0
  | k + 1, .nonStream _ :: rest => charsBeforeNonStream k rest
  | _, [] => 0

def isNonStreamUpd : MessageUpdate → Bool
  | .stream _ => false
  | .nonStream _ => true

theorem streamChars_append (xs ys : List MessageUpdate) :
    streamChars (xs ++ ys) = streamChars xs ++ streamChars ys := by
  induction xs with
  | nil => simp [streamChars]
  | cons u rest ih => cases u <;> simp [streamChars, ih]

theorem filterNonStream_append (xs ys : List MessageUpdate) :
    filterNonStream (xs ++ ys) = filterNonStream xs ++ filterNonStream ys := by
  induction xs with
  | nil => simp [filterNonStream]
  | cons u rest ih => cases u <;> simp [filterNonStream, ih]

theorem streamChars_of_allNon (q : List MessageUpdate)
    (h : ∀ u ∈ q, isNonStreamUpd u = true) : streamChars q = [] := by
  induction q with
  | nil => rfl
  | cons u rest ih =>
    cases u with
    | stream t => simpa [isNonStreamUpd] using h _ (List.mem_cons_self _ _)
    | nonStream p => exact (by simp [streamChars, ih (fun x hx => h x (by simp [hx]))])

theorem filterNonStream_of_allNon (q : List MessageUpdate)
    (h : ∀ u ∈ q, isNonStreamUpd u = true) : filterNonStream q = q := by
  induction q with
  | nil => rfl
  | cons u rest ih =>
    cases u with
    | stream t => simpa [isNonStreamUpd] using h _ (List.mem_cons_self _ _)
    | nonStream p => simp [filterNonStream, ih (fun x hx => h x (by simp [hx]))]

theorem charsBeforeNonStream_mono (us : List MessageUpdate) (k k' : Nat) (h : k ≤ k') :
    charsBeforeNonStream k us ≤ charsBeforeNonStream k' us := by
  induction us generalizing k k' with
  | nil => simp [charsBeforeNonStream]
  | cons u rest ih =>
    cases u with
    | stream t =>
      simp only [charsBeforeNonStream]
      exact Nat.add_le_add_left (ih k k' h) _
    | nonStream p =>
      cases k with
      | zero => simp [charsBeforeNonStream]
      | succ k0 =>
        cases k' with
        | zero => omega
        | succ k1 =>
          simp only [charsBeforeNonStream]
          exact ih k0 k1 (Nat.succ_le_succ_iff.mp h)

theorem charsBeforeNonStream_ge_len (us : List MessageUpdate) (k : Nat)
    (h : (filterNonStream us).length ≤ k) :
    charsBeforeNonStream k us = (streamChars us).length := by
  induction us generalizing k with
  | nil => simp [charsBeforeNonStream, streamChars]
  | cons u rest ih =>
    cases u with
    | stream t =>
      simp only [charsBeforeNonStream, streamChars, List.length_append]
      rw [ih k (by simpa [filterNonStream] using h)]
    | nonStream p =>
      cases k with
      | zero => simp [filterNonStream] at h
      | succ k0 =>
        simp only [charsBeforeNonStream, streamChars]
        exact ih k0 (by simpa [filterNonStream, Nat.succ_le_succ_iff] using h)

theorem charsBeforeNonStream_append_lt (xs ys : List MessageUpdate) (k : Nat)
    (h : k < (filterNonStream xs).length) :
    charsBeforeNonStream k (xs ++ ys) = charsBeforeNonStream k xs := by
  induction xs generalizing k with
  | nil => simp [filterNonStream] at h
  | cons u rest ih =>
    cases u with
    | stream t =>
      simp only [List.cons_append, charsBeforeNonStream]
      rw [ih k (by simpa [filterNonStream] using h)]
    | nonStream p =>
      cases k with
      | zero => simp [charsBeforeNonStream]
      | succ k0 =>
        simp only [List.cons_append, charsBeforeNonStream]
        exact ih k0 (by simpa [filterNonStream, Nat.succ_lt_succ_iff] using h)

theorem charsBeforeNonStream_append_ge (xs ys : List MessageUpdate) (k : Nat)
    (h : (filterNonStream xs).length ≤ k) :
    charsBeforeNonStream k (xs ++ ys) =
      (streamChars xs).length + charsBeforeNonStream (k - (filterNonStream xs).length) ys := by
  induction xs generalizing k with
  | nil => simp [filterNonStream, streamChars, charsBeforeNonStream]
  | cons u rest ih =>
    cases u with
    | stream t =>
      simp only [List.cons_append, charsBeforeNonStream, streamChars, filterNonStream,
        List.length_append]
      rw [ih k (by simpa [filterNonStream] using h)]
      omega
    | nonStream p =>
      cases k with
      | zero => simp [filterNonStream] at h
      | succ k0 =>
        simp only [List.cons_append, charsBeforeNonStream, streamChars, filterNonStream,
          List.append_eq]
        rw [ih k0 (by simpa [filterNonStream, Nat.succ_le_succ_iff] using h)]
        simp [Nat.succ_sub_succ]

theorem charsBeforeNonStream_allNon_lt (q ys : List MessageUpdate) (j : Nat)
    (hq : ∀ u ∈ q, isNonStreamUpd u = true) (hj : j < q.length) :
    charsBeforeNonStream j (q ++ ys) = 0 := by
  induction q generalizing j with
  | nil => simp at hj
  | cons u rest ih =>
    cases u with
    | stream t => simpa [isNonStreamUpd] using hq _ (List.mem_cons_self _ _)
    | nonStream p =>
      cases j with
      | zero => simp [charsBeforeNonStream]
      | succ j0 =>
        simp only [List.cons_append, charsBeforeNonStream]
        exact ih j0 (fun x hx => hq x (by simp [hx])) (by simpa [Nat.succ_lt_succ_iff] using hj)

/-- Run invariant of the pacing scheduler: some prefix `consumed` of the input
has been drained by the producer; the emitted stream characters followed by
the queued ones are exactly the consumed stream characters; the emitted
non-stream records followed by the queued ones are exactly the consumed
non-stream records; `iteratorDone` implies the upstream is exhausted; queued
non-stream records really are non-stream; while the non-stream queue is
non-empty no character produced after its head has been emitted; and in the
output so far, no non-stream record has more characters before it than it had
in the input. -/
def SmoothInv (input : List MessageUpdate) (st : SmoothState) (out : List MessageUpdate) : Prop :=
  (∃ consumed, input = consumed ++ st.pending ∧
    streamChars out ++ st.charQueue = streamChars consumed ∧
    filterNonStream out ++ st.nonQueue = filterNonStream consumed) ∧
  (st.iteratorDone = true → st.pending = []) ∧
  (∀ u ∈ st.nonQueue, isNonStreamUpd u = true) ∧
  (st.nonQueue ≠ [] →
    (streamChars out).length ≤ charsBeforeNonStream (filterNonStream out).length input) ∧
  (∀ k, k < (filterNonStream out).length →
    charsBeforeNonStream k out ≤ charsBeforeNonStream k input)

theorem ord_extend (input out q tail : List MessageUpdate)
    (hq : ∀ u ∈ q, isNonStreamUpd u = true)
    (htail : filterNonStream tail = [])
    (hqb : q ≠ [] →
      (streamChars out).length ≤ charsBeforeNonStream (filterNonStream out).length input)
    (hord : ∀ k, k < (filterNonStream out).length →
      charsBeforeNonStream k out ≤ charsBeforeNonStream k input) :
    ∀ k, k < (filterNonStream (out ++ (q ++ tail))).length →
      charsBeforeNonStream k (out ++ (q ++ tail)) ≤ charsBeforeNonStream k input := by
  intro k hk
  have hfq : filterNonStream (q ++ tail) = q := by
    rw [filterNonStream_append, filterNonStream_of_allNon q hq, htail, List.append_nil]
  rw [filterNonStream_append, hfq, List.length_append] at hk
  by_cases hlt : k < (filterNonStream out).length
  · rw [charsBeforeNonStream_append_lt _ _ k hlt]
    exact hord k hlt
  · push_neg at hlt
    rw [charsBeforeNonStream_append_ge _ _ k hlt]
    have hjq : k - (filterNonStream out).length < q.length := by omega
    rw [charsBeforeNonStream_allNon_lt q tail _ hq hjq]
    have hqne : q ≠ [] := by
      intro he
      subst he
      simp at hjq
    have h1 := hqb hqne
    have h2 := charsBeforeNonStream_mono input (filterNonStream out).length k hlt
    omega

theorem smoothInv_step (input : List MessageUpdate) (s : SmoothStep) (st : SmoothState)
    (out : List MessageUpdate) (h : SmoothInv input st out) :
    SmoothInv input (smoothStep s st).1 (out ++ (smoothStep s st).2) := by
  obtain ⟨pend, cq, nq, d⟩ := st
  obtain ⟨⟨consumed, hsplit, hchars, hnons⟩, hdone, hq, hqb, hord⟩ := h
  cases s with
  | producer =>
    simp only [smoothStep, List.append_nil]
    cases pend with
    | nil =>
      exact ⟨⟨consumed, by rw [hsplit]; rfl, hchars, hnons⟩,
        fun _ => rfl, hq, hqb, hord⟩
    | cons u rest =>
      cases u with
      | stream tok =>
        refine ⟨⟨consumed ++ [MessageUpdate.stream tok], ?_, ?_, ?_⟩, ?_, hq, hqb, hord⟩
        · rw [hsplit]; simp [producerStep]
        · simp only [producerStep]
          rw [streamChars_append, ← List.append_assoc, hchars]
          simp [streamChars]
        · simp only [producerStep]
          rw [filterNonStream_append, hnons]
          simp [filterNonStream]
        · intro hd
          simpa using hdone hd
      | nonStream p =>
        refine ⟨⟨consumed ++ [MessageUpdate.nonStream p], ?_, ?_, ?_⟩, ?_, ?_, ?_, hord⟩
        · rw [hsplit]; simp [producerStep]
        · simp only [producerStep]
          rw [streamChars_append, hchars]
          simp [streamChars]
        · simp only [producerStep]
          rw [filterNonStream_append, ← List.append_assoc, hnons]
          simp [filterNonStream]
        · intro hd
          simpa using hdone hd
        · intro u hu
          simp only [producerStep] at hu
          rcases List.mem_append.mp hu with h1 | h1
          · exact hq u h1
          · rw [List.mem_singleton.mp h1]; rfl
        · intro _
          by_cases hnq : nq = []
          · subst hnq
            simp only [List.append_nil] at hnons
            rw [hnons, hsplit, charsBeforeNonStream_append_ge consumed _ _ le_rfl,
              Nat.sub_self]
            have : charsBeforeNonStream 0 (MessageUpdate.nonStream p :: rest) = 0 := rfl
            rw [this, Nat.add_zero]
            have := congrArg List.length hchars
            simp only [List.length_append] at this
            omega
          · exact hqb hnq
  | frame n =>
    simp only [smoothStep, frameStep]
    by_cases hc : 0 < n ∧ cq ≠ []
    · rw [if_pos hc]
      refine ⟨⟨consumed, hsplit, ?_, ?_⟩, hdone, by simp, by simp, ?_⟩
      · simp only [streamChars_append, streamChars_of_allNon nq hq, streamChars,
          List.nil_append, List.append_nil]
        rw [List.append_assoc, List.take_append_drop, hchars]
      · simp only [List.append_nil, filterNonStream_append,
          filterNonStream_of_allNon nq hq, filterNonStream]
        simpa using hnons
      · exact ord_extend input out nq
          [MessageUpdate.stream (cq.take (min n cq.length))] hq rfl hqb hord
    · rw [if_neg hc]
      refine ⟨⟨consumed, hsplit, ?_, ?_⟩, hdone, by simp, by simp, ?_⟩
      · rw [streamChars_append, streamChars_of_allNon nq hq]
        simpa using hchars
      · rw [List.append_nil, filterNonStream_append, filterNonStream_of_allNon nq hq]
        exact hnons
      · have := ord_extend input out nq [] hq rfl hqb hord
        simpa using this

theorem smoothInv_run (input : List MessageUpdate) (sched : List SmoothStep)
    (st : SmoothState) (out : List MessageUpdate) (h : SmoothInv input st out) :
    SmoothInv input (smoothRun sched st).1 (out ++ (smoothRun sched st).2) := by
  induction sched generalizing st out with
  | nil => simpa [smoothRun] using h
  | cons s ss ih =>
    have h2 := ih (smoothStep s st).1 (out ++ (smoothStep s st).2) (smoothInv_step input s st out h)
    simpa [smoothRun, List.append_assoc] using h2

theorem smoothInv_init (input : List MessageUpdate) :
    SmoothInv input (smoothInit input) [] := by
  refine ⟨⟨[], by simp [smoothInit], by simp [smoothInit, streamChars],
    by simp [smoothInit, filterNonStream]⟩, ?_, ?_, ?_, ?_⟩
  · intro hd; simp [smoothInit] at hd
  · intro u hu; simp [smoothInit] at hu
  · intro hne; simp [smoothInit] at hne
  · intro k hk; simp [filterNonStream] at hk

/-! ## C4: pacing completeness -/

/-- C4 (confirmed): for every schedule of producer steps and frame budgets
(covering every wall-clock/speed evolution of the consumer loop), once the run
reaches a state where the loop guard
`!iteratorDone || charQueue.length > 0 || pendingNonStreamUpdates.length > 0`
is false — the only way the consumer loop exits — the characters of the
emitted stream records are exactly the characters of the input stream records,
in order: nothing is lost and nothing is duplicated. -/
theorem smooth_pacing_completeness (input : List MessageUpdate) (sched : List SmoothStep)
    (hdone : (smoothRun sched (smoothInit input)).1.iteratorDone = true)
    (hchar : (smoothRun sched (smoothInit input)).1.charQueue = [])
    (_hnon : (smoothRun sched (smoothInit input)).1.nonQueue = []) :
    streamChars (smoothRun sched (smoothInit input)).2 = streamChars input := by
  have hinv := smoothInv_run input sched (smoothInit input) [] (smoothInv_init input)
  simp only [List.nil_append] at hinv
  obtain ⟨⟨consumed, hsplit, hchars, hnons⟩, hdone2, _, _, _⟩ := hinv
  rw [hdone2 hdone, List.append_nil] at hsplit
  rw [hchar, List.append_nil] at hchars
  exact hchars.trans (congrArg streamChars hsplit.symm)

theorem smooth_pacing_completeness_witness :
    streamChars (smoothRun [SmoothStep.producer, SmoothStep.producer, SmoothStep.frame 5]
        (smoothInit [MessageUpdate.stream "hi".data])).2 =
      streamChars [MessageUpdate.stream "hi".data] :=
  smooth_pacing_completeness [MessageUpdate.stream "hi".data]
    [SmoothStep.producer, SmoothStep.producer, SmoothStep.frame 5]
    (by decide) (by decide) (by decide)

/-! ## C5: ordering of non-stream records -/

/-- C5 (counterexample): a `NonStream` record is *not* always emitted after the
Stream text that preceded it in the input.  With `Stream "ab"` then
`NonStream "X"` both drained before the first frame, the frame emits the
pending non-stream update first and only then the spliced characters, so `X`
jumps ahead of the two characters that preceded it (2 characters precede `X`
in the input, 0 in the output). -/
theorem smooth_order_counterexample :
    (smoothRun [SmoothStep.producer, SmoothStep.producer, SmoothStep.frame 2]
        (smoothInit [MessageUpdate.stream "ab".data, MessageUpdate.nonStream "X".data])).2 =
      [MessageUpdate.nonStream "X".data, MessageUpdate.stream "ab".data] ∧
    charsBeforeNonStream 0
        [MessageUpdate.stream "ab".data, MessageUpdate.nonStream "X".data] = 2 ∧
    charsBeforeNonStream 0
        [MessageUpdate.nonStream "X".data, MessageUpdate.stream "ab".data] = 0 :=
  ⟨rfl, rfl, rfl⟩

/-- C5 (amended): on every completed run (loop guard false at the end), the
non-stream records appear in the output exactly in their input order and
unmutated, and no non-stream record is emitted *later* than its stream
position: the number of characters emitted before the `(k+1)`-st non-stream
record never exceeds the number of characters before it in the input.  (It can
be smaller: a pending non-stream record is emitted ahead of characters still
sitting in the queue, as the counterexample shows.) -/
theorem smooth_nonstream_order (input : List MessageUpdate) (sched : List SmoothStep)
    (hdone : (smoothRun sched (smoothInit input)).1.iteratorDone = true)
    (hchar : (smoothRun sched (smoothInit input)).1.charQueue = [])
    (hnon : (smoothRun sched (smoothInit input)).1.nonQueue = []) :
    filterNonStream (smoothRun sched (smoothInit input)).2 = filterNonStream input ∧
    ∀ k, charsBeforeNonStream k (smoothRun sched (smoothInit input)).2 ≤
      charsBeforeNonStream k input := by
  have hinv := smoothInv_run input sched (smoothInit input) [] (smoothInv_init input)
  simp only [List.nil_append] at hinv
  obtain ⟨⟨consumed, hsplit, hchars, hnons⟩, hdone2, _, _, hord⟩ := hinv
  rw [hdone2 hdone, List.append_nil] at hsplit
  rw [hchar, List.append_nil] at hchars
  rw [hnon, List.append_nil] at hnons
  refine ⟨by rw [hnons, hsplit], ?_⟩
  intro k
  by_cases hk : k < (filterNonStream (smoothRun sched (smoothInit input)).2).length
  · exact hord k hk
  · push_neg at hk
    have hlen : (filterNonStream consumed).length ≤ k := by
      rw [← hnons]; exact hk
    rw [charsBeforeNonStream_ge_len _ k hk, hchars, hsplit,
      charsBeforeNonStream_ge_len consumed k hlen]

theorem smooth_nonstream_order_witness :
    filterNonStream (smoothRun
        [SmoothStep.producer, SmoothStep.frame 3, SmoothStep.producer, SmoothStep.producer,
          SmoothStep.frame 1]
        (smoothInit [MessageUpdate.stream "ab".data, MessageUpdate.nonStream "X".data])).2 =
      filterNonStream [MessageUpdate.stream "ab".data, MessageUpdate.nonStream "X".data] ∧
    ∀ k, charsBeforeNonStream k (smoothRun
        [SmoothStep.producer, SmoothStep.frame 3, SmoothStep.producer, SmoothStep.producer,
          SmoothStep.frame 1]
        (smoothInit [MessageUpdate.stream "ab".data, MessageUpdate.nonStream "X".data])).2 ≤
      charsBeforeNonStream k [MessageUpdate.stream "ab".data, MessageUpdate.nonStream "X".data] :=
  smooth_nonstream_order [MessageUpdate.stream "ab".data, MessageUpdate.nonStream "X".data]
    [SmoothStep.producer, SmoothStep.frame 3, SmoothStep.producer, SmoothStep.producer,
      SmoothStep.frame 1]
    (by decide) (by decide) (by decide)

/-! ## C10: no empty stream tokens in the paced output -/

theorem smoothRun_stream_tokens_ne_nil (sched : List SmoothStep) (st : SmoothState)
    (hq : ∀ u ∈ st.nonQueue, isNonStreamUpd u = true) :
    ∀ t, MessageUpdate.stream t ∈ (smoothRun sched st).2 → t ≠ [] := by
  induction sched generalizing st with
  | nil =>
    intro t ht
    simp [smoothRun] at ht
  | cons s ss ih =>
    intro t ht
    simp only [smoothRun] at ht
    rcases List.mem_append.mp ht with h1 | h1
    · cases s with
      | producer => simp [smoothStep] at h1
      | frame n =>
        simp only [smoothStep, frameStep] at h1
        by_cases hc : 0 < n ∧ st.charQueue ≠ []
        · rw [if_pos hc] at h1
          rcases List.mem_append.mp h1 with h2 | h2
          · have := hq _ h2
            simp [isNonStreamUpd] at this
          · rw [List.mem_singleton] at h2
            simp only [MessageUpdate.stream.injEq] at h2
            subst h2
            have hpos : 0 < st.charQueue.length := List.length_pos.mpr hc.2
            apply List.length_pos.mp
            rw [List.length_take]
            have := hc.1
            omega
        · rw [if_neg hc] at h1
          have := hq _ h1
          simp [isNonStreamUpd] at this
    · refine ih (smoothStep s st).1 ?_ t h1
      cases s with
      | producer =>
        cases hp : st.pending with
        | nil =>
          intro u hu
          simp only [smoothStep, producerStep, hp] at hu
          exact hq u hu
        | cons v rest =>
          cases v with
          | stream tok =>
            intro u hu
            simp only [smoothStep, producerStep, hp] at hu
            exact hq u hu
          | nonStream p =>
            intro u hu
            simp only [smoothStep, producerStep, hp] at hu
            rcases List.mem_append.mp hu with h2 | h2
            · exact hq u h2
            · rw [List.mem_singleton.mp h2]; rfl
      | frame n =>
        intro u hu
        simp only [smoothStep, frameStep] at hu
        by_cases hc : 0 < n ∧ st.charQueue ≠ []
        · rw [if_pos hc] at hu
          simp at hu
        · rw [if_neg hc] at hu
          simp at hu

/-- C10 (confirmed): every stream record emitted by the pacing scheduler
carries a non-empty token — characters are spliced only when the budget is
positive and the queue non-empty, so `min budget queue.length ≥ 1` characters
are taken, and input stream records (empty ones included) contribute only
their characters, never an empty emission. -/
theorem smooth_no_empty_stream (input : List MessageUpdate) (sched : List SmoothStep)
    (t : Str) (hmem : MessageUpdate.stream t ∈ (smoothRun sched (smoothInit input)).2) :
    t ≠ [] :=
  smoothRun_stream_tokens_ne_nil sched (smoothInit input)
    (by intro u hu; simp [smoothInit] at hu) t hmem

theorem smooth_no_empty_stream_witness : "a".data ≠ [] :=
  smooth_no_empty_stream [MessageUpdate.stream "a".data]
    [SmoothStep.producer, SmoothStep.frame 1] "a".data (by decide)

/-! ## Transport failure handling (`fetchMessageUpdates`, lines 63-72)

The model captures the part of `fetchMessageUpdates` that runs before any
stream processing: the `response.ok` / `response.body` checks.  A `Response`
is abstracted by its status, status text, whether a body is present, and the
outcome of `response.json().then(obj => obj.message)`: the promise may reject
(body unreadable as JSON), or resolve to a JSON object carrying a string
`message` field, or resolve without one — in which case `errorMessage` is
`undefined` and `Error(undefined)` carries the empty message.  `Except.error`
models `throw`. -/

inductive JsonBodyOutcome where
  | rejected
  | parsedNoMessage
  | parsedMessage (m : Str)
deriving DecidableEq

structure JsResponse where
  status : Nat
  statusText : Str
  bodyPresent : Bool
  bodyJson : JsonBodyOutcome
deriving DecidableEq

/-- `response.ok`: status in the inclusive range 200-299. -/
def responseOk (r : JsResponse) : Bool := 200 ≤ r.status && r.status ≤ 299

/-- The template literal of line 67:
`Request failed with status code ${status}: ${statusText}`. -/
def fallbackErrorMessage (r : JsResponse) : Str :=
  "Request failed with status code ".data ++ (Nat.repr r.status).data ++ ": ".data
    ++ r.statusText

/-- The pre-stream checks of `fetchMessageUpdates`: on `!response.ok` throw an
error whose message is `obj.message` when the body resolves as JSON (the empty
message when that field is `undefined`), or the fallback template when
`response.json()` rejects; otherwise on a missing body throw
`"Body not defined"`; otherwise proceed. -/
def fetchMessageUpdatesCheck (r : JsResponse) : Except Str Unit :=
  if responseOk r = false then
    Except.error
      (match r.bodyJson with
       | .parsedMessage m => m
       | .parsedNoMessage => []
       | .rejected => fallbackErrorMessage r)
  else if r.bodyPresent = false then Except.error "Body not defined".data
  else Except.ok ()

/-! ## C9: synchronous transport failures -/

/-- C9 (counterexample): on a non-2xx response whose body parses as JSON but
carries no `message` field, the thrown error's message is the empty string
(`Error(undefined)`), not the fallback `"Request failed with status code ..."`
that the claim promises for every case where no structured message is
available. -/
theorem fetch_error_counterexample :
    fetchMessageUpdatesCheck
        ⟨500, "Internal Server Error".data, true, JsonBodyOutcome.parsedNoMessage⟩ =
      Except.error [] ∧
    fallbackErrorMessage
        ⟨500, "Internal Server Error".data, true, JsonBodyOutcome.parsedNoMessage⟩ ≠ [] := by
  exact ⟨rfl, by decide⟩

/-- C9 (amended): `fetchMessageUpdates` fails before any stream processing
exactly when the status is not 2xx or the body is absent.  On a non-2xx status
the message is the body's `message` field when the body parses as JSON and has
one; the fallback `"Request failed with status code <status>: <statusText>"`
exactly when reading the body as JSON fails; and the empty message when the
body parses without a `message` field.  A missing body on a 2xx response
throws `"Body not defined"`. -/
theorem fetch_failure_characterization (r : JsResponse) :
    ((∃ e, fetchMessageUpdatesCheck r = Except.error e) ↔
      (r.status < 200 ∨ 299 < r.status ∨ r.bodyPresent = false)) ∧
    (∀ m, responseOk r = false → r.bodyJson = JsonBodyOutcome.parsedMessage m →
      fetchMessageUpdatesCheck r = Except.error m) ∧
    (responseOk r = false → r.bodyJson = JsonBodyOutcome.rejected →
      fetchMessageUpdatesCheck r = Except.error (fallbackErrorMessage r)) ∧
    (responseOk r = false → r.bodyJson = JsonBodyOutcome.parsedNoMessage →
      fetchMessageUpdatesCheck r = Except.error []) ∧
    (responseOk r = true → r.bodyPresent = false →
      fetchMessageUpdatesCheck r = Except.error "Body not defined".data) ∧
    (responseOk r = true → r.bodyPresent = true →
      fetchMessageUpdatesCheck r = Except.ok ()) := by
  have hok : responseOk r = true ↔ (200 ≤ r.status ∧ r.status ≤ 299) := by
    simp [responseOk]
  refine ⟨?_, ?_, ?_, ?_, ?_, ?_⟩
  · cases hok1 : responseOk r with
    | false =>
      apply iff_of_true
      · exact ⟨(match r.bodyJson with
          | .parsedMessage m => m
          | .parsedNoMessage => []
          | .rejected => fallbackErrorMessage r),
          by simp [fetchMessageUpdatesCheck, hok1]⟩
      · have h3 : ¬(200 ≤ r.status ∧ r.status ≤ 299) := by
          intro hc
          rw [hok.mpr hc] at hok1
          cases hok1
        have h2 : r.status < 200 ∨ 299 < r.status := by omega
        exact h2.elim (fun h => Or.inl h) (fun h => Or.inr (Or.inl h))
    | true =>
      cases hbp : r.bodyPresent with
      | false =>
        apply iff_of_true
        · exact ⟨"Body not defined".data, by simp [fetchMessageUpdatesCheck, hok1, hbp]⟩
        · exact Or.inr (Or.inr rfl)
      | true =>
        apply iff_of_false
        · rintro ⟨e, he⟩
          simp [fetchMessageUpdatesCheck, hok1, hbp] at he
        · have h3 := hok.mp hok1
          push_neg
          refine ⟨by omega, by omega, by simp [hbp]⟩
  · intro m h1 h2
    simp [fetchMessageUpdatesCheck, h1, h2]
  · intro h1 h2
    simp [fetchMessageUpdatesCheck, h1, h2]
  · intro h1 h2
    simp [fetchMessageUpdatesCheck, h1, h2]
  · intro h1 h2
    simp [fetchMessageUpdatesCheck, h1, h2]
  · intro h1 h2
    simp [fetchMessageUpdatesCheck, h1, h2]

theorem fetch_failure_characterization_witness :
    fetchMessageUpdatesCheck
        ⟨404, "Not Found".data, true,
          JsonBodyOutcome.parsedMessage "Conversation not found".data⟩ =
      Except.error "Conversation not found".data :=
  (fetch_failure_characterization
      ⟨404, "Not Found".data, true,
        JsonBodyOutcome.parsedMessage "Conversation not found".data⟩).2.1
    "Conversation not found".data (by decide) rfl
